import Mathlib

/-!
Shallow embedding of the core of `src/app.py` (Extractor Modelo 200).

The program reads a PDF, classifies each page's positioned words into
amount candidates and code ("casilla") candidates, pairs each code with
the nearest admissible amount, accumulates the pairs in a dict across
pages, and emits a dense table over the configured code range.

Modelling conventions:
* A PyMuPDF word tuple `(x0, y0, x1, y1, text, ...)` becomes `Word`
  (the trailing block/line/word numbers are discarded by the code).
* Coordinates are rationals `ℚ`; the Python code computes with floats,
  and its comparisons (`dy > y_tol`, `dx < -2`, `dist < mejor_dist`)
  are modelled exactly over `ℚ`.  `math.hypot dx dy` is only ever used
  in `<` comparisons between two such values, and `hypot` is strictly
  monotone in `dx^2 + dy^2` for nonnegative radicands, so comparing the
  squared distances `dx^2 + dy^2` is an exact model of those comparisons.
* Token text is an ASCII/Unicode `String`; the regex class `\d` is
  modelled by `Char.isDigit` (the documents' digits are ASCII).
* Python's `str.strip` is modelled by `recortar` on the character list
  (drop whitespace from both ends).
* `dict[str, str]` becomes the function `String → Option String` with
  pointwise insertion (`insertar`), exactly the overwrite semantics of
  dict assignment.
-/

namespace Extractor200

/-- Configured range start, src/app.py line 18: ` CASILLA_INICIO = 1000`. -/
def CASILLA_INICIO : ℕ := 1000

/-- Configured range end, src/app.py line 19: `CASILLA_FIN = 2600`. -/
def CASILLA_FIN : ℕ := 2600

/-- Model of one positioned word `(x0, y0, x1, y1, texto)` as consumed by
`extraer_casillas` from `page.get_text("words")`. -/
structure Word where
  x0 : ℚ
  y0 : ℚ
  x1 : ℚ
  y1 : ℚ
  texto : String
deriving DecidableEq

/-- Whitespace test used by the model of `str.strip`. -/
def esBlanco (c : Char) : Bool := c.isWhitespace

/-- Model of Python `str.strip` on a character list: drop whitespace from
both ends. -/
def recortar (cs : List Char) : List Char :=
  ((cs.dropWhile esBlanco).reverse.dropWhile esBlanco).reverse

/-- Model of Python `str.strip` on strings (`texto.strip()`, line 69). -/
def strip (s : String) : String := String.mk (recortar s.data)

/-- Tail of `PATRON_IMPORTE` after the leading digit run: the regex part
`(?:\.\d{3})*,\d{2}` anchored at the end of the string.  The regex is
deterministic here: after the initial digit run the next character must be
`.` (another grouping block of exactly three digits) or `,` (exactly two
final digits, then end of string); a digit can never follow a completed
block, so no regex backtracking is possible and this structural recursion
matches exactly the strings the regex accepts. -/
def gruposImporte : List Char → Bool
  | '.' :: a :: b :: c :: resto =>
      a.isDigit && b.isDigit && c.isDigit && gruposImporte resto
  | ',' :: a :: b :: resto => a.isDigit && b.isDigit && resto.isEmpty
  | _ => false

/-- Model of `PATRON_IMPORTE.fullmatch t` (src/app.py lines 24 and 72):
the regex `-?\d{1,3}(?:\.\d{3})*,\d{2}$` used with `fullmatch`, i.e.
anchored at both ends.  The optional sign is forced (only `-?` can consume
a leading `-`), and the leading run `\d{1,3}` must be the maximal digit
run of length 1–3: the regex continues with `.` or `,`, never a digit, so
if the maximal run were longer than the amount consumed, a digit would
stand where `.` or `,` is required, for every backtracking choice. -/
def importeMatch (cs : List Char) : Bool :=
  match cs with
  | '-' :: r =>
      decide (1 ≤ (r.takeWhile Char.isDigit).length) &&
      decide ((r.takeWhile Char.isDigit).length ≤ 3) &&
      gruposImporte (r.dropWhile Char.isDigit)
  | r =>
      decide (1 ≤ (r.takeWhile Char.isDigit).length) &&
      decide ((r.takeWhile Char.isDigit).length ≤ 3) &&
      gruposImporte (r.dropWhile Char.isDigit)

/-- Amount-candidate test on a stripped token text (line 72). -/
def esImporte (t : String) : Bool := importeMatch t.data

/-- Body of `importeMatch` after the optional sign: the regex part
`\d{1,3}(?:\.\d{3})*,\d{2}` anchored at both ends.  `importeMatch`
computes exactly this on the string after the optional leading `-`. -/
def cuerpoImporte (r : List Char) : Bool :=
  decide (1 ≤ (r.takeWhile Char.isDigit).length) &&
  decide ((r.takeWhile Char.isDigit).length ≤ 3) &&
  gruposImporte (r.dropWhile Char.isDigit)

theorem importeMatch_cons_neg (r : List Char) :
    importeMatch ('-' :: r) = cuerpoImporte r := rfl

theorem importeMatch_of_no_neg (cs : List Char) (h : ∀ r, cs ≠ '-' :: r) :
    importeMatch cs = cuerpoImporte cs := by
  cases cs with
  | nil => rfl
  | cons c r =>
    by_cases hc : c = '-'
    · exact absurd (by rw [hc]) (h r)
    · show importeMatch (c :: r) = cuerpoImporte (c :: r)
      unfold importeMatch
      split
      · rename_i heq
        exact absurd heq (by intro hh; exact hc (List.head_eq_of_cons_eq hh))
      · rfl

/-- Model of `re.fullmatch(r"\d{5}", t)` (line 77): exactly five digits. -/
def esCincoDigitos (cs : List Char) : Bool :=
  decide (cs.length = 5) && cs.all Char.isDigit

/-- Model of Python `int(t)` on an all-digit string (line 78). -/
def valorNat (cs : List Char) : ℕ :=
  cs.foldl (fun a c => 10 * a + (c.toNat - '0'.toNat)) 0

/-- Code-candidate test on a stripped token text (lines 77–79): five
digits whose value lies in `[ CASILLA_INICIO, CASILLA_FIN]`. -/
def esCasilla (t : String) : Bool :=
  esCincoDigitos t.data &&
  decide ( CASILLA_INICIO ≤ valorNat t.data) &&
  decide (valorNat t.data ≤ CASILLA_FIN)

/-- Model of the classification loop (lines 65–80): each word's text is
stripped; amount candidates are collected into the first list
(`valores`), else code candidates into the second (`casillas`), in the
original token order, with the stripped text stored. -/
def clasificar : List Word → List Word × List Word
  | [] => ([], [])
  | w :: ws =>
    let resto := clasificar ws
    let t := strip w.texto
    if esImporte t then ({ w with texto := t } :: resto.1, resto.2)
    else if esCasilla t then (resto.1, { w with texto := t } :: resto.2)
    else resto

/-- Vertical center of a word's bounding box, `(y0 + y1) / 2`
(lines 88, 93, 99). -/
def vCentro (w : Word) : ℚ := (w.y0 + w.y1) / 2

/-- Stable insertion of a word into a list sorted ascending by vertical
center: the inserted word goes before the first element whose center is
not strictly smaller, so earlier tokens stay before later tokens with an
equal key. -/
def insertarValor (v : Word) : List Word → List Word
  | [] => [v]
  | w :: ws =>
    if vCentro w < vCentro v then w :: insertarValor v ws else v :: w :: ws

/-- Model of `valores.sort(key=lambda w: (w[1] + w[3]) / 2)` (line 88):
Python's `list.sort` is a stable ascending sort by the key, and a stable
insertion sort by the same key computes the identical list. -/
def ordenarValores : List Word → List Word
  | [] => []
  | v :: vs => insertarValor v (ordenarValores vs)

/-- Admission test for an amount candidate `v` against a code candidate
`cas` (lines 100–106): `v` survives both `continue`s exactly when the
vertical distance is at most `y_tol` and `dx = v.x0 - cas.x1` is at
least `-2`. -/
def admitido (y_tol : ℚ) (cas v : Word) : Bool :=
  !(decide (|vCentro v - vCentro cas| > y_tol)) &&
  !(decide (v.x0 - cas.x1 < -2))

/-- Squared Euclidean distance `dx^2 + dy^2` of the vector the code feeds
to `math.hypot` (line 110).  The code only compares `hypot dx dy` values
with `<` (line 112), and `Real.sqrt` is strictly monotone, so these
squared values compare exactly as the hypotenuses do. -/
def distSq (cas v : Word) : ℚ :=
  (v.x0 - cas.x1) ^ 2 + |vCentro v - vCentro cas| ^ 2

/-- The inner candidate scan (lines 95–114): iterate over the amount
candidates in order, skip the non-admitted ones, and keep the first
candidate attaining the strictly smallest (squared) distance, together
with that distance (`mejor_dist`, `mejor_valor`). -/
def escanear (y_tol : ℚ) (cas : Word) :
    List Word → Option (ℚ × String) → Option (ℚ × String)
  | [], mejor => mejor
  | v :: vs, mejor =>
    if admitido y_tol cas v then
      match mejor with
      | none => escanear y_tol cas vs (some (distSq cas v, v.texto))
      | some m =>
        if distSq cas v < m.1 then
          escanear y_tol cas vs (some (distSq cas v, v.texto))
        else
          escanear y_tol cas vs (some m)
    else
      escanear y_tol cas vs mejor

/-- The text selected for one code candidate, if any (`mejor_valor` after
the scan, line 116). -/
def mejorValor (y_tol : ℚ) (cas : Word) (vs : List Word) : Option String :=
  (escanear y_tol cas vs none).map Prod.snd

/-- Dict assignment `casillas_encontradas[cod] = mejor_valor`
(line 117), on the functional model of the dict. -/
def insertar (m : String → Option String) (k v : String) :
    String → Option String :=
  fun c => if c = k then some v else m c

/-- Processing of one page (lines 60–117): classify the words, skip the
page when either candidate list is empty, sort the amount candidates by
vertical center, and fold the per-code scan over the code candidates,
recording each produced match in the dict. -/
def procesarPagina (y_tol : ℚ) (m : String → Option String)
    (pagina : List Word) : String → Option String :=
  let valores := (clasificar pagina).1
  let casillas := (clasificar pagina).2
  if casillas.isEmpty || valores.isEmpty then m
  else
    casillas.foldl (fun m cas =>
      match mejorValor y_tol cas (ordenarValores valores) with
      | some v => insertar m cas.texto v
      | none => m) m

/-- The whole-document accumulation of the dict, page by page in document
order (lines 57–117), starting from the empty dict. -/
def procesarDoc (y_tol : ℚ) (doc : List (List Word)) :
    String → Option String :=
  doc.foldl (procesarPagina y_tol) (fun _ => none)

/-- Model of the Python format `f"{n:05d}"` (line 121) for a natural
number: the decimal digits, left-padded with `'0'` to width five. -/
def formatoCasilla (n : ℕ) : String :=
  String.mk (List.replicate (5 - (Nat.toDigits 10 n).length) '0' ++
    Nat.toDigits 10 n)

/-- `casillas_ordenadas` (line 121): the formatted codes for
`range( CASILLA_INICIO, CASILLA_FIN + 1)`. -/
def casillasOrdenadas : List String :=
  (List.range' CASILLA_INICIO (CASILLA_FIN + 1 - CASILLA_INICIO)).map
    formatoCasilla

/-- The core of `extraer_casillas` (lines 41–133): the returned table as
the list of `(Casilla, Valor)` rows, where `Valor` is
`casillas_encontradas.get(c, "")`. -/
def extraer_casillas (doc : List (List Word)) (y_tol : ℚ) :
    List (String × String) :=
  casillasOrdenadas.map (fun c => (c, (procesarDoc y_tol doc c).getD ""))

/-! ### The decimal digits produced by `Nat.toDigits` read back to the
number, so the formatted codes are pairwise distinct. -/

theorem toDigitsCore_eq_append (b : ℕ) :
    ∀ (f n : ℕ) (l : List Char),
      Nat.toDigitsCore b f n l = Nat.toDigitsCore b f n [] ++ l := by
  intro f
  induction f with
  | zero => intro n l; simp [Nat.toDigitsCore]
  | succ f ih =>
    intro n l
    simp only [Nat.toDigitsCore]
    by_cases h : n / b = 0
    · simp [h]
    · simp only [h, if_false]
      rw [ih (n / b) (Nat.digitChar (n % b) :: l),
        ih (n / b) [Nat.digitChar (n % b)], List.append_assoc,
        List.singleton_append]

theorem digitChar_val (n : ℕ) (h : n < 10) :
    (Nat.digitChar n).toNat - '0'.toNat = n := by
  interval_cases n <;> decide

theorem valorNat_concat (l : List Char) (c : Char) :
    valorNat (l ++ [c]) = 10 * valorNat l + (c.toNat - '0'.toNat) := by
  simp [valorNat, List.foldl_append]

theorem valorNat_toDigitsCore :
    ∀ (f n : ℕ), n < f → valorNat (Nat.toDigitsCore 10 f n []) = n := by
  intro f
  induction f with
  | zero => intro n h; omega
  | succ f ih =>
    intro n h
    simp only [Nat.toDigitsCore]
    by_cases h0 : n / 10 = 0
    · have hn : n < 10 := by omega
      have : n % 10 = n := Nat.mod_eq_of_lt hn
      simp only [h0, if_true, valorNat, List.foldl_cons, List.foldl_nil,
        Nat.mul_zero, Nat.zero_add, this]
      simpa using digitChar_val n hn
    · have h10 : 10 ≤ n := by omega
      have hlt : n / 10 < f := by
        have := Nat.div_lt_self (by omega : 0 < n) (by norm_num : 1 < 10)
        omega
      simp only [h0, if_false]
      rw [toDigitsCore_eq_append, valorNat_concat, ih (n / 10) hlt,
        digitChar_val (n % 10) (Nat.mod_lt n (by norm_num))]
      omega

theorem valorNat_toDigits (n : ℕ) :
    valorNat (Nat.toDigits 10 n) = n :=
  valorNat_toDigitsCore (n + 1) n (Nat.lt_succ_self n)

theorem valorNat_replicate_zero_append (k : ℕ) (l : List Char) :
    valorNat (List.replicate k '0' ++ l) = valorNat l := by
  induction k with
  | zero => simp
  | succ k ih =>
    simp only [List.replicate_succ, List.cons_append]
    simpa [valorNat] using ih

theorem valorNat_formatoCasilla (n : ℕ) :
    valorNat (formatoCasilla n).data = n := by
  simp only [formatoCasilla]
  rw [valorNat_replicate_zero_append, valorNat_toDigits]

theorem formatoCasilla_injective : Function.Injective formatoCasilla := by
  have h : Function.LeftInverse (fun s : String => valorNat s.data)
      formatoCasilla := fun n => valorNat_formatoCasilla n
  exact h.injective

theorem formatoCasilla_length (n : ℕ) (h : n < 100000) :
    (formatoCasilla n).length = 5 := by
  have hlen : (Nat.toDigits 10 n).length ≤ 5 := by
    have := Nat.toDigitsCore_length 10 (by norm_num) (n + 1) n 5
      (by norm_num at h ⊢; omega) (by norm_num)
    simpa [Nat.toDigits] using this
  show (List.replicate (5 - (Nat.toDigits 10 n).length) '0' ++
    Nat.toDigits 10 n).length = 5
  simp only [List.length_append, List.length_replicate]
  omega

/-- Helper: looking up a key known to be in the key list of a
`map`-tabulated association list yields the tabulated value. -/
theorem lookup_map_self (c : String) (l : List String) (f : String → String)
    (hm : c ∈ l) :
    List.lookup c (l.map (fun x => (x, f x))) = some (f c) := by
  induction l with
  | nil => cases hm
  | cons x xs ih =>
    by_cases hx : c = x
    · subst hx; simp [List.lookup]
    · have hb : (c == x) = false := beq_false_of_ne hx
      rcases List.mem_cons.mp hm with h | h
      · exact absurd h hx
      · simp only [List.map_cons, List.lookup, hb]
        exact ih h

/-- Claim C1: for every input document and tolerance, the table returned
by `extraer_casillas` has exactly `CASILLA_FIN - CASILLA_INICIO + 1` rows,
its code column is the sequence of zero-padded strings for the integers
` CASILLA_INICIO..CASILLA_FIN` in ascending numeric order, every code has
exactly five characters, and the column has no duplicates. -/
theorem claim_C1 (doc : List (List Word)) (y_tol : ℚ) :
    (extraer_casillas doc y_tol).length = CASILLA_FIN - CASILLA_INICIO + 1 ∧
    (extraer_casillas doc y_tol).map Prod.fst =
      (List.range' CASILLA_INICIO (CASILLA_FIN - CASILLA_INICIO + 1)).map
        formatoCasilla ∧
    (∀ p ∈ extraer_casillas doc y_tol, p.1.length = 5) ∧
    ((extraer_casillas doc y_tol).map Prod.fst).Nodup := by
  have hn : CASILLA_FIN + 1 - CASILLA_INICIO =
      CASILLA_FIN - CASILLA_INICIO + 1 := by
    norm_num [ CASILLA_INICIO, CASILLA_FIN]
  have hcol : (extraer_casillas doc y_tol).map Prod.fst = casillasOrdenadas := by
    simp [extraer_casillas, List.map_map, Function.comp_def]
  refine ⟨?_, ?_, ?_, ?_⟩
  · simp [extraer_casillas, casillasOrdenadas, hn]
  · rw [hcol]; simp [casillasOrdenadas, hn]
  · intro p hp
    rcases List.mem_map.mp hp with ⟨c, hc, hpc⟩
    rcases List.mem_map.mp hc with ⟨n, hn', hcn⟩
    have hn5 : n < 100000 := by
      have := (List.mem_range').mp hn'
      simp [ CASILLA_INICIO, CASILLA_FIN] at this
      omega
    have : p.1 = formatoCasilla n := by rw [← hpc, ← hcn]
    rw [this]
    exact formatoCasilla_length n hn5
  · rw [hcol]
    exact (List.nodup_range' _ _).map formatoCasilla_injective

/-- Witness for C1 at the empty document and tolerance 2. -/
theorem claim_C1_witness :
    (extraer_casillas [] 2).length = CASILLA_FIN - CASILLA_INICIO + 1 ∧
    ∀ p ∈ extraer_casillas [] 2, p.1.length = 5 :=
  ⟨(claim_C1 [] 2).1, (claim_C1 [] 2).2.2.1⟩

/-! ### Analysis of the per-code scan: it is the first-strict-minimum
fold over the admitted candidates. -/

/-- One step of the scan with the admission test factored out: the state
update the code performs on an admitted candidate (lines 110–114). -/
def paso (cas : Word) (mejor : Option (ℚ × String)) (v : Word) :
    Option (ℚ × String) :=
  match mejor with
  | none => some (distSq cas v, v.texto)
  | some m =>
    if distSq cas v < m.1 then some (distSq cas v, v.texto) else some m

theorem escanear_eq_foldl (y_tol : ℚ) (cas : Word) :
    ∀ (vs : List Word) (mejor : Option (ℚ × String)),
      escanear y_tol cas vs mejor =
        (vs.filter (admitido y_tol cas)).foldl (paso cas) mejor := by
  intro vs
  induction vs with
  | nil => intro mejor; simp [escanear]
  | cons v vs ih =>
    intro mejor
    by_cases h : admitido y_tol cas v
    · cases mejor with
      | none => simp [escanear, h, List.filter_cons, paso, ih]
      | some m =>
        by_cases hd : distSq cas v < m.1
        · simp [escanear, h, hd, List.filter_cons, paso, ih]
        · simp [escanear, h, hd, List.filter_cons, paso, ih]
    · simp [escanear, h, List.filter_cons, ih]

/-- The element the scan selects from a list, seen structurally: the
first element attaining the minimum squared distance (a later element
replaces the current best only on a strictly smaller distance). -/
def eligeMin (cas : Word) : List Word → Option Word
  | [] => none
  | v :: vs =>
    match eligeMin cas vs with
    | none => some v
    | some w => if distSq cas w < distSq cas v then some w else some v

theorem foldl_paso_some (cas : Word) :
    ∀ (vs : List Word) (d : ℚ) (t : String),
      vs.foldl (paso cas) (some (d, t)) =
        match eligeMin cas vs with
        | none => some (d, t)
        | some w =>
          if distSq cas w < d then some (distSq cas w, w.texto)
          else some (d, t) := by
  intro vs
  induction vs with
  | nil => intro d t; simp [eligeMin]
  | cons v vs ih =>
    intro d t
    simp only [List.foldl_cons, paso]
    rcases hE : eligeMin cas vs with _ | w
    · by_cases hv : distSq cas v < d
      · rw [if_pos hv, ih, hE]
        simp [eligeMin, hE, hv]
      · rw [if_neg hv, ih, hE]
        simp [eligeMin, hE, hv]
    · by_cases hv : distSq cas v < d
      · rw [if_pos hv, ih, hE]
        simp only [eligeMin, hE]
        by_cases hw : distSq cas w < distSq cas v
        · rw [if_pos hw]
          have : distSq cas w < d := lt_trans hw hv
          simp [hw, hv, this]
        · rw [if_neg hw]
          simp [hw, hv]
      · rw [if_neg hv, ih, hE]
        simp only [eligeMin, hE]
        by_cases hw : distSq cas w < distSq cas v
        · rw [if_pos hw]
        · rw [if_neg hw]
          have : ¬ distSq cas w < d := by
            push_neg at hv hw ⊢
            exact le_trans hv hw
          simp [hv, this]

theorem foldl_paso_none (cas : Word) (vs : List Word) :
    vs.foldl (paso cas) none =
      (eligeMin cas vs).map (fun w => (distSq cas w, w.texto)) := by
  cases vs with
  | nil => rfl
  | cons v vs =>
    simp only [List.foldl_cons, paso, foldl_paso_some]
    rcases hE : eligeMin cas vs with _ | w
    · simp [eligeMin, hE]
    · simp only [eligeMin, hE]
      by_cases hw : distSq cas w < distSq cas v
      · simp [hw]
      · simp [hw]

theorem eligeMin_cons_ne_none (cas v : Word) (vs : List Word) :
    eligeMin cas (v :: vs) ≠ none := by
  simp only [eligeMin]
  rcases eligeMin cas vs with _ | w
  · simp
  · dsimp only
    split <;> simp

theorem eligeMin_eq_none_iff (cas : Word) (l : List Word) :
    eligeMin cas l = none ↔ l = [] := by
  cases l with
  | nil => simp [eligeMin]
  | cons v vs =>
    simp only [List.cons_ne_nil, iff_false]
    exact eligeMin_cons_ne_none cas v vs

theorem eligeMin_le (cas : Word) :
    ∀ (l : List Word) (w : Word), eligeMin cas l = some w →
      ∀ u ∈ l, distSq cas w ≤ distSq cas u := by
  intro l
  induction l with
  | nil => intro w h; cases h
  | cons v vs ih =>
    intro w h u hu
    rcases hE : eligeMin cas vs with _ | w'
    · simp only [eligeMin, hE] at h
      have hvs : vs = [] := (eligeMin_eq_none_iff cas vs).mp hE
      subst hvs
      have hvw : v = w := Option.some.inj h
      subst hvw
      rcases List.mem_cons.mp hu with h1 | h1
      · subst h1; exact le_refl _
      · cases h1
    · simp only [eligeMin, hE] at h
      by_cases hw : distSq cas w' < distSq cas v
      · rw [if_pos hw] at h
        have hww : w' = w := Option.some.inj h
        subst hww
        rcases List.mem_cons.mp hu with h1 | h1
        · subst h1; exact le_of_lt hw
        · exact ih w' hE u h1
      · rw [if_neg hw] at h
        have hvw : v = w := Option.some.inj h
        subst hvw
        push_neg at hw
        rcases List.mem_cons.mp hu with h1 | h1
        · subst h1; exact le_refl _
        · exact le_trans hw (ih w' hE u h1)

theorem eligeMin_first (cas : Word) :
    ∀ (l : List Word) (w : Word), eligeMin cas l = some w →
      ∃ l1 l2, l = l1 ++ w :: l2 ∧ ∀ u ∈ l1, distSq cas w < distSq cas u := by
  intro l
  induction l with
  | nil => intro w h; cases h
  | cons v vs ih =>
    intro w h
    rcases hE : eligeMin cas vs with _ | w'
    · simp only [eligeMin, hE] at h
      have hvw : v = w := Option.some.inj h
      subst hvw
      exact ⟨[], vs, rfl, by simp⟩
    · simp only [eligeMin, hE] at h
      by_cases hw : distSq cas w' < distSq cas v
      · rw [if_pos hw] at h
        have hww : w' = w := Option.some.inj h
        subst hww
        rcases ih w' hE with ⟨l1, l2, hl, hlt⟩
        refine ⟨v :: l1, l2, by rw [hl]; rfl, ?_⟩
        intro u hu
        rcases List.mem_cons.mp hu with h1 | h1
        · subst h1; exact hw
        · exact hlt u h1
      · rw [if_neg hw] at h
        have hvw : v = w := Option.some.inj h
        subst hvw
        exact ⟨[], vs, rfl, by simp⟩

/-! ### The two candidate patterns are disjoint, and the classifier is a
pair of filters over the stripped tokens. -/

theorem gruposImporte_comma : ∀ cs, gruposImporte cs = true → ',' ∈ cs := by
  intro cs h
  induction cs using gruposImporte.induct with
  | case1 a b c resto ih =>
    simp only [gruposImporte, Bool.and_eq_true] at h
    exact List.mem_cons_of_mem _ (List.mem_cons_of_mem _
      (List.mem_cons_of_mem _ (List.mem_cons_of_mem _ (ih h.2))))
  | case2 a b resto => exact List.mem_cons_self _ _
  | case3 => simp [gruposImporte] at h

theorem cuerpoImporte_comma (r : List Char) (h : cuerpoImporte r = true) :
    ',' ∈ r := by
  simp only [cuerpoImporte, Bool.and_eq_true] at h
  have := gruposImporte_comma _ h.2
  have hsplit := List.takeWhile_append_dropWhile Char.isDigit r
  rw [← hsplit]
  exact List.mem_append_right _ this

theorem importeMatch_comma (cs : List Char) (h : importeMatch cs = true) :
    ',' ∈ cs := by
  by_cases hneg : ∃ r, cs = '-' :: r
  · rcases hneg with ⟨r, rfl⟩
    rw [importeMatch_cons_neg] at h
    exact List.mem_cons_of_mem _ (cuerpoImporte_comma r h)
  · push_neg at hneg
    rw [importeMatch_of_no_neg cs hneg] at h
    exact cuerpoImporte_comma cs h

/-- A string can never pass both candidate tests: an amount contains a
comma while a code is all digits. -/
theorem importe_casilla_disjoint (t : String) (h : esImporte t = true) :
    esCasilla t = false := by
  by_contra hcontra
  have hcas : esCasilla t = true := by
    cases hc : esCasilla t
    · exact absurd hc hcontra
    · rfl
  have hdig : ∀ c ∈ t.data, c.isDigit = true := by
    have h1 := ((Bool.and_eq_true _ _).mp hcas).1
    have h2 := ((Bool.and_eq_true _ _).mp h1).1
    simp only [esCincoDigitos, Bool.and_eq_true] at h2
    exact List.all_eq_true.mp h2.2
  have hcomma : ',' ∈ t.data := importeMatch_comma t.data h
  have : (','.isDigit : Bool) = true := hdig ',' hcomma
  simp at this

/-! ### The spec's description of the amount pattern, as a structural
decomposition, and its equivalence with the embedded regex matcher. -/

/-- The spec's wording of the amount pattern: an optional leading `-`,
one to three digits, zero or more groups of `.` followed by exactly three
digits, then `,` followed by exactly two digits, and nothing else. -/
def FormaImporte (cs : List Char) : Prop :=
  ∃ (signo d1 : List Char) (grupos : List (List Char)) (f : List Char),
    (signo = [] ∨ signo = ['-']) ∧
    1 ≤ d1.length ∧ d1.length ≤ 3 ∧ (∀ c ∈ d1, c.isDigit = true) ∧
    (∀ g ∈ grupos, g.length = 3 ∧ ∀ c ∈ g, c.isDigit = true) ∧
    f.length = 2 ∧ (∀ c ∈ f, c.isDigit = true) ∧
    cs = signo ++ d1 ++ (grupos.flatMap (fun g => '.' :: g)) ++ ',' :: f

theorem span_append (p : Char → Bool) :
    ∀ (l r : List Char), (∀ c ∈ l, p c = true) →
      (∀ c, r.head? = some c → p c = false) →
      (l ++ r).takeWhile p = l ∧ (l ++ r).dropWhile p = r := by
  intro l
  induction l with
  | nil =>
    intro r _ hr
    cases r with
    | nil => exact ⟨rfl, rfl⟩
    | cons c r' =>
      have hc : p c = false := hr c rfl
      constructor
      · simp [List.takeWhile_cons, hc]
      · simp [List.dropWhile_cons, hc]
  | cons a l ih =>
    intro r hl hr
    have ha : p a = true := hl a (List.mem_cons_self a l)
    have hrec := ih r (fun c hc => hl c (List.mem_cons_of_mem a hc)) hr
    constructor
    · simp [List.takeWhile_cons, ha, hrec.1]
    · simp [List.dropWhile_cons, ha, hrec.2]

theorem gruposImporte_sound :
    ∀ cs, gruposImporte cs = true →
      ∃ (grupos : List (List Char)) (f : List Char),
        (∀ g ∈ grupos, g.length = 3 ∧ ∀ c ∈ g, c.isDigit = true) ∧
        f.length = 2 ∧ (∀ c ∈ f, c.isDigit = true) ∧
        cs = (grupos.flatMap (fun g => '.' :: g)) ++ ',' :: f := by
  intro cs h
  induction cs using gruposImporte.induct with
  | case1 a b c resto ih =>
    simp only [gruposImporte, Bool.and_eq_true] at h
    rcases h with ⟨⟨⟨ha, hb⟩, hc⟩, hrec⟩
    rcases ih hrec with ⟨grupos, f, hg, hf2, hfd, hcs⟩
    refine ⟨[a, b, c] :: grupos, f, ?_, hf2, hfd, ?_⟩
    · intro g hg'
      rcases List.mem_cons.mp hg' with h1 | h1
      · subst h1
        refine ⟨rfl, ?_⟩
        intro x hx
        rcases List.mem_cons.mp hx with h2 | h2
        · subst h2; exact ha
        rcases List.mem_cons.mp h2 with h3 | h3
        · subst h3; exact hb
        rcases List.mem_cons.mp h3 with h4 | h4
        · subst h4; exact hc
        · cases h4
      · exact hg g h1
    · simp [hcs, List.flatMap_cons]
  | case2 a b resto =>
    simp only [gruposImporte, Bool.and_eq_true, List.isEmpty_iff] at h
    rcases h with ⟨⟨ha, hb⟩, hrest⟩
    refine ⟨[], [a, b], by simp, rfl, ?_, by simp [hrest]⟩
    intro x hx
    rcases List.mem_cons.mp hx with h2 | h2
    · subst h2; exact ha
    rcases List.mem_cons.mp h2 with h3 | h3
    · subst h3; exact hb
    · cases h3
  | case3 => simp [gruposImporte] at h

theorem gruposImporte_complete :
    ∀ (grupos : List (List Char)) (f : List Char),
      (∀ g ∈ grupos, g.length = 3 ∧ ∀ c ∈ g, c.isDigit = true) →
      f.length = 2 → (∀ c ∈ f, c.isDigit = true) →
      gruposImporte ((grupos.flatMap (fun g => '.' :: g)) ++ ',' :: f) =
        true := by
  intro grupos
  induction grupos with
  | nil =>
    intro f hg hf2 hfd
    rcases List.length_eq_two.mp hf2 with ⟨a, b, rfl⟩
    have ha : a.isDigit = true := hfd a (by simp)
    have hb : b.isDigit = true := hfd b (by simp)
    simp [gruposImporte, ha, hb]
  | cons g gs ih =>
    intro f hg hf2 hfd
    rcases List.length_eq_three.mp (hg g (List.mem_cons_self g gs)).1 with
      ⟨a, b, c, rfl⟩
    have hd := (hg _ (List.mem_cons_self _ gs)).2
    have ha : a.isDigit = true := hd a (by simp)
    have hb : b.isDigit = true := hd b (by simp)
    have hc : c.isDigit = true := hd c (by simp)
    have hrec := ih f (fun g' hg' => hg g' (List.mem_cons_of_mem _ hg'))
      hf2 hfd
    simp only [List.flatMap_cons, List.cons_append, List.append_assoc,
      List.nil_append]
    simp only [gruposImporte, Bool.and_eq_true]
    exact ⟨⟨⟨ha, hb⟩, hc⟩, hrec⟩

theorem cuerpoImporte_sound (r : List Char) (h : cuerpoImporte r = true) :
    ∃ (d1 : List Char) (grupos : List (List Char)) (f : List Char),
      1 ≤ d1.length ∧ d1.length ≤ 3 ∧ (∀ c ∈ d1, c.isDigit = true) ∧
      (∀ g ∈ grupos, g.length = 3 ∧ ∀ c ∈ g, c.isDigit = true) ∧
      f.length = 2 ∧ (∀ c ∈ f, c.isDigit = true) ∧
      r = d1 ++ (grupos.flatMap (fun g => '.' :: g)) ++ ',' :: f := by
  simp only [cuerpoImporte, Bool.and_eq_true, decide_eq_true_eq] at h
  rcases h with ⟨⟨h1, h3⟩, hrest⟩
  rcases gruposImporte_sound _ hrest with ⟨grupos, f, hg, hf2, hfd, hcs⟩
  refine ⟨r.takeWhile Char.isDigit, grupos, f, h1, h3, ?_, hg, hf2, hfd, ?_⟩
  · intro c hc
    exact List.mem_takeWhile_imp hc
  · conv_lhs => rw [← List.takeWhile_append_dropWhile Char.isDigit r]
    rw [hcs, List.append_assoc]

theorem cuerpoImporte_complete (d1 : List Char) (grupos : List (List Char))
    (f : List Char) (h1 : 1 ≤ d1.length) (h3 : d1.length ≤ 3)
    (hd : ∀ c ∈ d1, c.isDigit = true)
    (hg : ∀ g ∈ grupos, g.length = 3 ∧ ∀ c ∈ g, c.isDigit = true)
    (hf2 : f.length = 2) (hfd : ∀ c ∈ f, c.isDigit = true) :
    cuerpoImporte
      (d1 ++ (grupos.flatMap (fun g => '.' :: g)) ++ ',' :: f) = true := by
  have hhead : ∀ c,
      ((grupos.flatMap (fun g => '.' :: g)) ++ ',' :: f).head? = some c →
        c.isDigit = false := by
    intro c hc
    cases grupos with
    | nil =>
      simp only [List.flatMap_nil, List.nil_append, List.head?_cons] at hc
      cases hc; decide
    | cons g gs =>
      simp only [List.flatMap_cons, List.cons_append, List.append_assoc,
        List.head?_cons] at hc
      cases hc; decide
  have hspan := span_append Char.isDigit d1
    ((grupos.flatMap (fun g => '.' :: g)) ++ ',' :: f) hd hhead
  simp only [cuerpoImporte, List.append_assoc]
  rw [hspan.1, hspan.2]
  simp only [Bool.and_eq_true, decide_eq_true_eq]
  exact ⟨⟨h1, h3⟩, gruposImporte_complete grupos f hg hf2 hfd⟩

/-- The embedded matcher accepts exactly the strings of the spec's
amount shape. -/
theorem importeMatch_iff_forma (cs : List Char) :
    importeMatch cs = true ↔ FormaImporte cs := by
  constructor
  · intro h
    by_cases hneg : ∃ r, cs = '-' :: r
    · rcases hneg with ⟨r, rfl⟩
      rw [importeMatch_cons_neg] at h
      rcases cuerpoImporte_sound r h with
        ⟨d1, grupos, f, h1, h3, hd, hg, hf2, hfd, hr⟩
      exact ⟨['-'], d1, grupos, f, Or.inr rfl, h1, h3, hd, hg, hf2, hfd,
        by simp [hr]⟩
    · push_neg at hneg
      rw [importeMatch_of_no_neg cs hneg] at h
      rcases cuerpoImporte_sound cs h with
        ⟨d1, grupos, f, h1, h3, hd, hg, hf2, hfd, hr⟩
      exact ⟨[], d1, grupos, f, Or.inl rfl, h1, h3, hd, hg, hf2, hfd,
        by simp [hr]⟩
  · rintro ⟨signo, d1, grupos, f, hs, h1, h3, hd, hg, hf2, hfd, rfl⟩
    have hbody := cuerpoImporte_complete d1 grupos f h1 h3 hd hg hf2 hfd
    rcases hs with rfl | rfl
    · have hdig : ∀ r, ([] : List Char) ++ d1 ++
          (grupos.flatMap (fun g => '.' :: g)) ++ ',' :: f ≠ '-' :: r := by
        intro r hcontra
        cases d1 with
        | nil => simp at h1
        | cons a d1' =>
          have ha : a.isDigit = true := hd a (List.mem_cons_self a d1')
          have : a = '-' := by
            have := congrArg List.head? hcontra
            simpa using this
          rw [this] at ha
          simp at ha
      rw [importeMatch_of_no_neg _ hdig]
      simpa using hbody
    · rw [show (['-'] ++ d1 ++ (grupos.flatMap (fun g => '.' :: g)) ++
          ',' :: f) = '-' :: (d1 ++ (grupos.flatMap (fun g => '.' :: g)) ++
          ',' :: f) by simp]
      rw [importeMatch_cons_neg]
      simpa using hbody

/-- The stripped copy of a word, as stored by the classifier. -/
def stripWord (w : Word) : Word := { w with texto := strip w.texto }

theorem clasificar_fst (ws : List Word) :
    (clasificar ws).1 =
      (ws.map stripWord).filter (fun w => esImporte w.texto) := by
  induction ws with
  | nil => rfl
  | cons w ws ih =>
    simp only [clasificar, List.map_cons, List.filter_cons]
    by_cases h1 : esImporte (strip w.texto)
    · simp [h1, stripWord, ih]
    · by_cases h2 : esCasilla (strip w.texto) <;>
        simp [h1, h2, stripWord, ih]

theorem clasificar_snd (ws : List Word) :
    (clasificar ws).2 =
      (ws.map stripWord).filter
        (fun w => !esImporte w.texto && esCasilla w.texto) := by
  induction ws with
  | nil => rfl
  | cons w ws ih =>
    simp only [clasificar, List.map_cons, List.filter_cons]
    by_cases h1 : esImporte (strip w.texto)
    · simp [h1, stripWord, ih]
    · by_cases h2 : esCasilla (strip w.texto) <;>
        simp [h1, h2, stripWord, ih]

theorem mem_clasificar_fst (ws : List Word) (v : Word)
    (h : v ∈ (clasificar ws).1) :
    ∃ w ∈ ws, v = stripWord w ∧ esImporte (strip w.texto) = true := by
  rw [clasificar_fst] at h
  rcases List.mem_filter.mp h with ⟨hmem, himp⟩
  rcases List.mem_map.mp hmem with ⟨w, hw, hws⟩
  refine ⟨w, hw, hws.symm, ?_⟩
  rw [← hws] at himp
  exact himp

theorem mem_clasificar_snd (ws : List Word) (v : Word)
    (h : v ∈ (clasificar ws).2) :
    ∃ w ∈ ws, v = stripWord w ∧ esImporte (strip w.texto) = false ∧
      esCasilla (strip w.texto) = true := by
  rw [clasificar_snd] at h
  rcases List.mem_filter.mp h with ⟨hmem, hcond⟩
  rcases List.mem_map.mp hmem with ⟨w, hw, hws⟩
  rw [← hws] at hcond
  rcases (Bool.and_eq_true _ _).mp hcond with ⟨hni, hcas⟩
  refine ⟨w, hw, hws.symm, ?_, hcas⟩
  cases hi : esImporte (strip w.texto)
  · rfl
  · rw [stripWord] at hni
    simp only [hi] at hni
    cases hni

/-! ### Claims C3–C6 -/

/-- Claim C3: a token is classified as an amount candidate iff its
trimmed text fully matches the anchored amount pattern — an optional
leading `-`, one to three digits, zero or more groups of `.` plus exactly
three digits, then `,` plus exactly two digits; in particular `1.234,5`
and `1234,56` are rejected while `17.772,60`, `-1.234,56` and `0,00`
are accepted. -/
theorem claim_C3 :
    (∀ ws : List Word, (clasificar ws).1 =
      (ws.map stripWord).filter (fun w => esImporte w.texto)) ∧
    (∀ t : String, esImporte t = true ↔ FormaImporte t.data) ∧
    esImporte "17.772,60" = true ∧ esImporte "-1.234,56" = true ∧
    esImporte "0,00" = true ∧ esImporte "1.234,5" = false ∧
    esImporte "1234,56" = false :=
  ⟨clasificar_fst, fun t => importeMatch_iff_forma t.data,
    by decide, by decide, by decide, by decide, by decide⟩

/-- Witness for C3: the shape decomposition of a concrete accepted
amount string, obtained through the claim's equivalence. -/
theorem claim_C3_witness : FormaImporte "17.772,60".data :=
  (claim_C3.2.1 "17.772,60").mp (by decide)

/-- Claim C4: a token is classified as a code candidate iff it is not an
amount candidate, its trimmed text is exactly five digits, and its value
lies in `[ CASILLA_INICIO, CASILLA_FIN]`; no token is in both candidate
sets. -/
theorem claim_C4 :
    (∀ ws : List Word, (clasificar ws).2 =
      (ws.map stripWord).filter
        (fun w => !esImporte w.texto && esCasilla w.texto)) ∧
    (∀ t : String, (!esImporte t && esCasilla t) = true ↔
      (esImporte t = false ∧ t.data.length = 5 ∧
        (∀ c ∈ t.data, c.isDigit = true) ∧
        CASILLA_INICIO ≤ valorNat t.data ∧
        valorNat t.data ≤ CASILLA_FIN)) ∧
    (∀ t : String, ¬(esImporte t = true ∧ esCasilla t = true)) := by
  refine ⟨clasificar_snd, ?_, ?_⟩
  · intro t
    simp only [esCasilla, esCincoDigitos, Bool.and_eq_true,
      Bool.not_eq_true', decide_eq_true_eq, List.all_eq_true]
    tauto
  · rintro t ⟨h1, h2⟩
    rw [importe_casilla_disjoint t h1] at h2
    cases h2

/-- Witness for C4: the concrete code string `01500` satisfies the
right-hand side of the claim's equivalence. -/
theorem claim_C4_witness :
    esImporte "01500" = false ∧ "01500".data.length = 5 ∧
    (∀ c ∈ "01500".data, c.isDigit = true) ∧
    CASILLA_INICIO ≤ valorNat "01500".data ∧
    valorNat "01500".data ≤ CASILLA_FIN :=
  (claim_C4.2.1 "01500").mp (by decide)

/-- Claim C5: an amount candidate is admitted as a potential partner of
a code candidate iff its vertical distance is at most `y_tol` and its
left edge is at least `code.right - 2`, both boundaries inclusive; only
admitted candidates influence the scan; and the spec's four boundary
examples behave as stated (code center `y = 100`, right edge `x = 10`,
`y_tol = 2.5`). -/
theorem claim_C5 :
    (∀ (y_tol : ℚ) (cas v : Word),
      admitido y_tol cas v = true ↔
        (|vCentro v - vCentro cas| ≤ y_tol ∧ -2 ≤ v.x0 - cas.x1)) ∧
    (∀ (y_tol : ℚ) (cas : Word) (vs : List Word),
      mejorValor y_tol cas vs =
        mejorValor y_tol cas (vs.filter (admitido y_tol cas))) ∧
    admitido (5/2) ⟨0, 99, 10, 101, "01501"⟩
      ⟨10, 102, 20, 103, "1,00"⟩ = true ∧
    admitido (5/2) ⟨0, 99, 10, 101, "01501"⟩
      ⟨10, 102.01, 20, 103.01, "1,00"⟩ = false ∧
    admitido (5/2) ⟨0, 99, 10, 101, "01501"⟩
      ⟨8, 99, 20, 101, "1,00"⟩ = true ∧
    admitido (5/2) ⟨0, 99, 10, 101, "01501"⟩
      ⟨7.99, 99, 20, 101, "1,00"⟩ = false := by
  refine ⟨?_, ?_, ?_, ?_, ?_, ?_⟩
  · intro y_tol cas v
    simp only [admitido, Bool.and_eq_true, Bool.not_eq_true',
      decide_eq_false_iff_not, not_lt]
  · intro y_tol cas vs
    simp [mejorValor, escanear_eq_foldl, List.filter_filter]
  · norm_num [admitido, vCentro, abs_le, lt_abs]
  · norm_num [admitido, vCentro, abs_le, lt_abs]
  · norm_num [admitido, vCentro, abs_le, lt_abs]
  · norm_num [admitido, vCentro, abs_le, lt_abs]

/-- Witness for C5: the claim's admission equivalence applied at the
first boundary example. -/
theorem claim_C5_witness :
    |vCentro ⟨10, 102, 20, 103, "1,00"⟩ -
      vCentro ⟨0, 99, 10, 101, "01501"⟩| ≤ 5/2 ∧
    -2 ≤ (⟨10, 102, 20, 103, "1,00"⟩ : Word).x0 -
      (⟨0, 99, 10, 101, "01501"⟩ : Word).x1 :=
  (claim_C5.1 (5/2) ⟨0, 99, 10, 101, "01501"⟩
    ⟨10, 102, 20, 103, "1,00"⟩).mp claim_C5.2.2.1

/-- Claim C6: the scan produces no match iff no candidate is admitted;
and when it produces the text `t`, that text belongs to an admitted
candidate of minimum squared (hence minimum Euclidean) distance, and
every admitted candidate scanned before it has strictly larger distance —
first-encountered wins on ties, later equal-distance candidates never
replace it. -/
theorem claim_C6 :
    (∀ (y_tol : ℚ) (cas : Word) (vs : List Word),
      mejorValor y_tol cas vs = none ↔
        vs.filter (admitido y_tol cas) = []) ∧
    (∀ (y_tol : ℚ) (cas : Word) (vs : List Word) (t : String),
      mejorValor y_tol cas vs = some t →
        ∃ l1 w l2, vs.filter (admitido y_tol cas) = l1 ++ w :: l2 ∧
          w.texto = t ∧
          (∀ u ∈ vs.filter (admitido y_tol cas),
            distSq cas w ≤ distSq cas u) ∧
          (∀ u ∈ l1, distSq cas w < distSq cas u)) := by
  have key : ∀ (y_tol : ℚ) (cas : Word) (vs : List Word),
      mejorValor y_tol cas vs =
        (eligeMin cas (vs.filter (admitido y_tol cas))).map
          (fun w => w.texto) := by
    intro y_tol cas vs
    rw [mejorValor, escanear_eq_foldl, foldl_paso_none, Option.map_map]
    rfl
  constructor
  · intro y_tol cas vs
    rw [key]
    simp only [Option.map_eq_none']
    exact eligeMin_eq_none_iff cas _
  · intro y_tol cas vs t h
    rw [key] at h
    rcases Option.map_eq_some.mp h with ⟨w, hw, hwt⟩
    rcases eligeMin_first cas _ w hw with ⟨l1, l2, hl, hlt⟩
    exact ⟨l1, w, l2, hl, hwt, eligeMin_le cas _ w hw, hlt⟩

/-! ### The sort is a permutation; the per-page and per-document folds
are association-list applications with last-write-wins semantics. -/

theorem insertarValor_perm (v : Word) (l : List Word) :
    (insertarValor v l).Perm (v :: l) := by
  induction l with
  | nil => exact List.Perm.refl _
  | cons w ws ih =>
    by_cases h : vCentro w < vCentro v
    · simp only [insertarValor, h, if_true]
      exact (ih.cons w).trans (List.Perm.swap v w ws)
    · simp only [insertarValor, h, if_false]
      exact List.Perm.refl _

theorem ordenarValores_perm (l : List Word) :
    (ordenarValores l).Perm l := by
  induction l with
  | nil => exact List.Perm.refl _
  | cons v vs ih =>
    exact (insertarValor_perm v (ordenarValores vs)).trans (ih.cons v)

theorem mem_ordenarValores (l : List Word) (v : Word) :
    v ∈ ordenarValores l ↔ v ∈ l :=
  (ordenarValores_perm l).mem_iff

theorem eligeMin_mem (cas : Word) (l : List Word) (w : Word)
    (h : eligeMin cas l = some w) : w ∈ l := by
  rcases eligeMin_first cas l w h with ⟨l1, l2, rfl, _⟩
  exact List.mem_append_right l1 (List.mem_cons_self w l2)

/-- The selected text, when present, is the text of the first-minimum
element of the admitted sublist. -/
theorem mejorValor_eq_eligeMin (y_tol : ℚ) (cas : Word) (vs : List Word) :
    mejorValor y_tol cas vs =
      (eligeMin cas (vs.filter (admitido y_tol cas))).map
        (fun w => w.texto) := by
  rw [mejorValor, escanear_eq_foldl, foldl_paso_none, Option.map_map]
  rfl

theorem mejorValor_mem (y_tol : ℚ) (cas : Word) (vs : List Word)
    (t : String) (h : mejorValor y_tol cas vs = some t) :
    ∃ w ∈ vs, admitido y_tol cas w = true ∧ w.texto = t := by
  rw [mejorValor_eq_eligeMin] at h
  rcases Option.map_eq_some.mp h with ⟨w, hw, hwt⟩
  have hmem := eligeMin_mem cas _ w hw
  rcases List.mem_filter.mp hmem with ⟨hv, hadm⟩
  exact ⟨w, hv, hadm, hwt⟩

/-- The `(code, value)` pairs one page contributes, in the order the
code loop records them (lines 92–117). -/
def matchesPagina (y_tol : ℚ) (pagina : List Word) :
    List (String × String) :=
  if (clasificar pagina).2.isEmpty || (clasificar pagina).1.isEmpty then []
  else
    (clasificar pagina).2.filterMap (fun cas =>
      (mejorValor y_tol cas (ordenarValores (clasificar pagina).1)).map
        (fun v => (cas.texto, v)))

/-- Sequential application of recorded pairs to the dict. -/
def aplicar (m : String → Option String) (l : List (String × String)) :
    String → Option String :=
  l.foldl (fun m p => insertar m p.1 p.2) m

theorem procesarPagina_eq (y_tol : ℚ) (m : String → Option String)
    (pagina : List Word) :
    procesarPagina y_tol m pagina = aplicar m (matchesPagina y_tol pagina) := by
  unfold procesarPagina matchesPagina
  by_cases h : (clasificar pagina).2.isEmpty || (clasificar pagina).1.isEmpty
  · simp [h, aplicar]
  · simp only [h, if_false]
    generalize (clasificar pagina).2 = casillas
    induction casillas generalizing m with
    | nil => rfl
    | cons cas rest ih =>
      simp only [List.foldl_cons, List.filterMap_cons]
      rcases hm : mejorValor y_tol cas
          (ordenarValores (clasificar pagina).1) with _ | v
      · simpa [hm] using ih m
      · simp only [hm, Option.map_some, aplicar, List.foldl_cons]
        exact ih (insertar m cas.texto v)

theorem aplicar_append (m : String → Option String)
    (l1 l2 : List (String × String)) :
    aplicar m (l1 ++ l2) = aplicar (aplicar m l1) l2 := by
  simp [aplicar, List.foldl_append]

theorem procesarDoc_eq (y_tol : ℚ) (doc : List (List Word)) :
    procesarDoc y_tol doc =
      aplicar (fun _ => none) ((doc.map (matchesPagina y_tol)).flatten) := by
  rw [procesarDoc]
  generalize (fun _ : String => (none : Option String)) = m
  induction doc generalizing m with
  | nil => rfl
  | cons pagina doc ih =>
    simp only [List.foldl_cons, List.map_cons, List.flatten_cons]
    rw [ih, procesarPagina_eq, aplicar_append]

theorem aplicar_lookup (c : String) :
    ∀ (l : List (String × String)) (m : String → Option String),
      aplicar m l c =
        l.foldl (fun acc p => if p.1 = c then some p.2 else acc) (m c) := by
  intro l
  induction l with
  | nil => intro m; rfl
  | cons p l ih =>
    intro m
    show aplicar (insertar m p.1 p.2) l c = _
    rw [ih]
    simp only [List.foldl_cons]
    congr 1
    simp only [insertar]
    by_cases hp : p.1 = c
    · simp [hp]
    · have : ¬ c = p.1 := fun hc => hp hc.symm
      simp [hp, this]

theorem foldl_last (c : String) :
    ∀ (l : List (String × String)) (acc : Option String),
      l.foldl (fun acc p => if p.1 = c then some p.2 else acc) acc =
        match (l.filter (fun p => p.1 = c)).getLast? with
        | some q => some q.2
        | none => acc := by
  intro l
  induction l using List.reverseRecOn with
  | nil => intro acc; rfl
  | append_singleton l p ih =>
    intro acc
    rw [List.foldl_append, List.filter_append]
    simp only [List.foldl_cons, List.foldl_nil]
    by_cases hp : p.1 = c
    · simp [hp, List.getLast?_concat]
    · simpa [hp] using ih acc

/-- Witness for C6 on a concrete one-candidate page. -/
theorem claim_C6_witness :
    ∃ l1 w l2,
      [(⟨25, 100, 30, 102, "7,00"⟩ : Word)].filter
        (admitido 2 ⟨10, 100, 20, 102, "01500"⟩) = l1 ++ w :: l2 ∧
      w.texto = "7,00" ∧
      (∀ u ∈ [(⟨25, 100, 30, 102, "7,00"⟩ : Word)].filter
          (admitido 2 ⟨10, 100, 20, 102, "01500"⟩),
        distSq ⟨10, 100, 20, 102, "01500"⟩ w ≤
          distSq ⟨10, 100, 20, 102, "01500"⟩ u) ∧
      (∀ u ∈ l1, distSq ⟨10, 100, 20, 102, "01500"⟩ w <
        distSq ⟨10, 100, 20, 102, "01500"⟩ u) :=
  claim_C6.2 2 ⟨10, 100, 20, 102, "01500"⟩ [⟨25, 100, 30, 102, "7,00"⟩]
    "7,00" (by norm_num [mejorValor, escanear, admitido, distSq, vCentro])

/-- Claim C8: the document-scoped mapping holds, for each code, the value
of the last `(code, value)` pair recorded across all pages in document
order — later matches silently overwrite earlier ones; in particular, in
the two-page example where code `01501` matches `100,00` on page 1 and
`200,00` on page 2, the final table row holds `200,00`. -/
theorem claim_C8 :
    (∀ (doc : List (List Word)) (y_tol : ℚ) (c : String),
      procesarDoc y_tol doc c =
        (((doc.map (matchesPagina y_tol)).flatten.filter
          (fun p => p.1 = c)).getLast?).map Prod.snd) ∧
    List.lookup "01501"
      (extraer_casillas
        [[⟨0, 100, 10, 102, "01501"⟩, ⟨12, 100, 20, 102, "100,00"⟩],
         [⟨0, 100, 10, 102, "01501"⟩, ⟨12, 100, 20, 102, "200,00"⟩]]
        (5/2)) = some "200,00" := by
  constructor
  · intro doc y_tol c
    rw [procesarDoc_eq, aplicar_lookup, foldl_last]
    rcases hE : ((doc.map (matchesPagina y_tol)).flatten.filter
        (fun p => p.1 = c)).getLast? with _ | q <;> rw [hE] <;> rfl
  · have h1 : clasificar
        [(⟨0, 100, 10, 102, "01501"⟩ : Word), ⟨12, 100, 20, 102, "100,00"⟩] =
        ([⟨12, 100, 20, 102, "100,00"⟩], [⟨0, 100, 10, 102, "01501"⟩]) := by
      decide
    have h2 : clasificar
        [(⟨0, 100, 10, 102, "01501"⟩ : Word), ⟨12, 100, 20, 102, "200,00"⟩] =
        ([⟨12, 100, 20, 102, "200,00"⟩], [⟨0, 100, 10, 102, "01501"⟩]) := by
      decide
    have hdoc : procesarDoc (5/2)
        [[⟨0, 100, 10, 102, "01501"⟩, ⟨12, 100, 20, 102, "100,00"⟩],
         [⟨0, 100, 10, 102, "01501"⟩, ⟨12, 100, 20, 102, "200,00"⟩]]
        "01501" = some "200,00" := by
      simp only [procesarDoc, List.foldl_cons, List.foldl_nil,
        procesarPagina, h1, h2]
      norm_num [ordenarValores, insertarValor, mejorValor, escanear,
        admitido, distSq, vCentro, insertar]
    have hmem : "01501" ∈ casillasOrdenadas := by
      have h5 : formatoCasilla 1501 = "01501" := by decide
      rw [← h5]
      refine List.mem_map_of_mem _ ?_
      rw [List.mem_range'_1]
      norm_num [ CASILLA_INICIO, CASILLA_FIN]
    rw [extraer_casillas, lookup_map_self _ _ _ hmem]
    simp [hdoc]

/-- Claim C2: a code of the configured range for which no page has an
admissible (code token, amount token) pair appears in the table with the
empty string as its value. -/
theorem claim_C2 (doc : List (List Word)) (y_tol : ℚ) (n : ℕ)
    (h1 : CASILLA_INICIO ≤ n) (h2 : n ≤ CASILLA_FIN)
    (h : ∀ pagina ∈ doc, ∀ cas ∈ (clasificar pagina).2,
      cas.texto = formatoCasilla n →
      ∀ v ∈ (clasificar pagina).1, admitido y_tol cas v = false) :
    List.lookup (formatoCasilla n) (extraer_casillas doc y_tol) =
      some "" := by
  have hnone : procesarDoc y_tol doc (formatoCasilla n) = none := by
    rw [procesarDoc_eq, aplicar_lookup, foldl_last]
    have hfil : (doc.map (matchesPagina y_tol)).flatten.filter
        (fun p => p.1 = formatoCasilla n) = [] := by
      rw [List.filter_eq_nil_iff]
      intro p hp
      rcases List.mem_flatten.mp hp with ⟨entry, hentry, hpent⟩
      rcases List.mem_map.mp hentry with ⟨pagina, hpag, hpageq⟩
      rw [← hpageq] at hpent
      rw [matchesPagina] at hpent
      by_cases hskip : (clasificar pagina).2.isEmpty ||
          (clasificar pagina).1.isEmpty
      · rw [if_pos hskip] at hpent
        cases hpent
      · rw [if_neg hskip] at hpent
        rcases List.mem_filterMap.mp hpent with ⟨cas, hcas, hsome⟩
        rcases Option.map_eq_some.mp hsome with ⟨v, hv, hpv⟩
        intro hpc
        have hctext : cas.texto = formatoCasilla n := by
          rw [← hpv] at hpc
          simpa using hpc
        rcases mejorValor_mem _ _ _ _ hv with ⟨w, hw, hadm, _⟩
        have hwval : w ∈ (clasificar pagina).1 :=
          (mem_ordenarValores _ w).mp hw
        have := h pagina hpag cas hcas hctext w hwval
        rw [this] at hadm
        cases hadm
    rw [hfil]
    rfl
  have hmem : formatoCasilla n ∈ casillasOrdenadas := by
    refine List.mem_map_of_mem _ ?_
    rw [List.mem_range'_1]
    simp only [ CASILLA_INICIO, CASILLA_FIN] at h1 h2 ⊢
    omega
  rw [extraer_casillas, lookup_map_self _ _ _ hmem]
  simp [hnone]

/-- Witness for C2: a one-page document whose only amount token is far
below the code token, so the code's row is blank. -/
theorem claim_C2_witness :
    CASILLA_INICIO ≤ 1000 ∧ (1000 : ℕ) ≤ CASILLA_FIN ∧
    List.lookup (formatoCasilla 1000)
      (extraer_casillas
        [[⟨0, 100, 10, 102, "01000"⟩, ⟨12, 200, 20, 202, "1,00"⟩]] 2) =
      some "" := by
  have hcl : clasificar
      [(⟨0, 100, 10, 102, "01000"⟩ : Word), ⟨12, 200, 20, 202, "1,00"⟩] =
      ([⟨12, 200, 20, 202, "1,00"⟩], [⟨0, 100, 10, 102, "01000"⟩]) := by
    decide
  refine ⟨by decide, by decide, claim_C2 _ 2 1000 (by decide) (by decide) ?_⟩
  intro pagina hpag cas hcas hctext v hval
  have hpg : pagina =
      [(⟨0, 100, 10, 102, "01000"⟩ : Word), ⟨12, 200, 20, 202, "1,00"⟩] := by
    simpa using hpag
  subst hpg
  rw [hcl] at hcas hval
  have hc : cas = (⟨0, 100, 10, 102, "01000"⟩ : Word) := by simpa using hcas
  have hv : v = (⟨12, 200, 20, 202, "1,00"⟩ : Word) := by simpa using hval
  subst hc
  subst hv
  norm_num [admitido, vCentro]

/-- Claim C10: every non-empty table value is the verbatim stripped text
of some token of some page, that token fully matched the amount pattern,
and it satisfied both admission constraints against a classified code
token bearing the row's code string; the core never fabricates or
reformats amount text. -/
theorem claim_C10 (doc : List (List Word)) (y_tol : ℚ) (c val : String)
    (hmem : (c, val) ∈ extraer_casillas doc y_tol) (hne : val ≠ "") :
    ∃ pagina ∈ doc,
      (∃ w ∈ pagina, val = strip w.texto ∧
        esImporte (strip w.texto) = true) ∧
      ∃ v ∈ (clasificar pagina).1, v.texto = val ∧
        ∃ cas ∈ (clasificar pagina).2, cas.texto = c ∧
          admitido y_tol cas v = true := by
  rcases List.mem_map.mp hmem with ⟨c0, hc0, hpair⟩
  have hcc : c0 = c := congrArg Prod.fst hpair
  subst hcc
  have hval : (procesarDoc y_tol doc c0).getD "" = val :=
    congrArg Prod.snd hpair
  have hsome : procesarDoc y_tol doc c0 = some val := by
    rcases hP : procesarDoc y_tol doc c0 with _ | v0
    · rw [hP] at hval
      simp only [Option.getD_none] at hval
      exact absurd hval.symm hne
    · rw [hP] at hval
      simp only [Option.getD_some] at hval
      rw [hval]
  rw [procesarDoc_eq, aplicar_lookup, foldl_last] at hsome
  rcases hE : ((doc.map (matchesPagina y_tol)).flatten.filter
      (fun p => p.1 = c0)).getLast? with _ | q
  · rw [hE] at hsome
    cases hsome
  · rw [hE] at hsome
    have hq2 : q.2 = val := Option.some.inj hsome
    have hqmem := List.mem_of_getLast?_eq_some hE
    rcases List.mem_filter.mp hqmem with ⟨hqfl, hqc⟩
    have hqc' : q.1 = c0 := by simpa using hqc
    rcases List.mem_flatten.mp hqfl with ⟨entry, hentry, hqent⟩
    rcases List.mem_map.mp hentry with ⟨pagina, hpag, hpageq⟩
    rw [← hpageq] at hqent
    rw [matchesPagina] at hqent
    by_cases hskip : (clasificar pagina).2.isEmpty ||
        (clasificar pagina).1.isEmpty
    · rw [if_pos hskip] at hqent
      cases hqent
    · rw [if_neg hskip] at hqent
      rcases List.mem_filterMap.mp hqent with ⟨cas, hcas, hsomeq⟩
      rcases Option.map_eq_some.mp hsomeq with ⟨v, hv, hqv⟩
      have hvval : v = val := by rw [← hq2, ← hqv]
      have hctext : cas.texto = c0 := by rw [← hqc', ← hqv]
      subst hvval
      rcases mejorValor_mem _ _ _ _ hv with ⟨w, hw, hadm, hwt⟩
      have hwv : w ∈ (clasificar pagina).1 := (mem_ordenarValores _ w).mp hw
      refine ⟨pagina, hpag, ?_, w, hwv, hwt, cas, hcas, hctext, hadm⟩
      rcases mem_clasificar_fst pagina w hwv with ⟨w0, hw0, hws, himp⟩
      refine ⟨w0, hw0, ?_, himp⟩
      rw [← hwt, hws]
      rfl

/-- Witness for C10 on a concrete one-page document with one match. -/
theorem claim_C10_witness :
    ("01500", "7,00") ∈ extraer_casillas
      [[⟨10, 100, 20, 102, "01500"⟩, ⟨25, 100, 30, 102, "7,00"⟩]] 2 ∧
    ∃ pagina ∈
      [[(⟨10, 100, 20, 102, "01500"⟩ : Word), ⟨25, 100, 30, 102, "7,00"⟩]],
      (∃ w ∈ pagina, "7,00" = strip w.texto ∧
        esImporte (strip w.texto) = true) ∧
      ∃ v ∈ (clasificar pagina).1, v.texto = "7,00" ∧
        ∃ cas ∈ (clasificar pagina).2, cas.texto = "01500" ∧
          admitido 2 cas v = true := by
  have hcl : clasificar
      [(⟨10, 100, 20, 102, "01500"⟩ : Word), ⟨25, 100, 30, 102, "7,00"⟩] =
      ([⟨25, 100, 30, 102, "7,00"⟩], [⟨10, 100, 20, 102, "01500"⟩]) := by
    decide
  have hdoc : procesarDoc 2
      [[⟨10, 100, 20, 102, "01500"⟩, ⟨25, 100, 30, 102, "7,00"⟩]]
      "01500" = some "7,00" := by
    simp only [procesarDoc, List.foldl_cons, List.foldl_nil,
      procesarPagina, hcl]
    norm_num [ordenarValores, insertarValor, mejorValor, escanear,
      admitido, distSq, vCentro, insertar]
  have hmem : ("01500", "7,00") ∈ extraer_casillas
      [[⟨10, 100, 20, 102, "01500"⟩, ⟨25, 100, 30, 102, "7,00"⟩]] 2 := by
    rw [extraer_casillas]
    refine List.mem_map.mpr ⟨"01500", ?_, ?_⟩
    · have h5 : formatoCasilla 1500 = "01500" := by decide
      rw [← h5]
      refine List.mem_map_of_mem _ ?_
      rw [List.mem_range'_1]
      norm_num [ CASILLA_INICIO, CASILLA_FIN]
    · rw [hdoc]
      rfl
  exact ⟨hmem, claim_C10 _ 2 "01500" "7,00" hmem (by decide)⟩

/-- Counterexample to C7 as stated: a page with one code candidate
(vertical center 101) and two amount candidates at equal squared
distance 8 (centers 99 and 103, both 2 units away, same `dx = 2`).  In
original token order the scan keeps `1,00`; after sorting by vertical
center the lower-centered `2,00` comes first and wins.  So sorting does
change the selected Match. -/
theorem claim_C7_cex :
    (clasificar [⟨0, 100, 10, 102, "01500"⟩, ⟨12, 102, 20, 104, "1,00"⟩,
      ⟨12, 98, 20, 100, "2,00"⟩]).1 =
      [⟨12, 102, 20, 104, "1,00"⟩, ⟨12, 98, 20, 100, "2,00"⟩] ∧
    (clasificar [⟨0, 100, 10, 102, "01500"⟩, ⟨12, 102, 20, 104, "1,00"⟩,
      ⟨12, 98, 20, 100, "2,00"⟩]).2 = [⟨0, 100, 10, 102, "01500"⟩] ∧
    mejorValor (5/2) ⟨0, 100, 10, 102, "01500"⟩
      (ordenarValores [⟨12, 102, 20, 104, "1,00"⟩,
        ⟨12, 98, 20, 100, "2,00"⟩]) = some "2,00" ∧
    mejorValor (5/2) ⟨0, 100, 10, 102, "01500"⟩
      [⟨12, 102, 20, 104, "1,00"⟩, ⟨12, 98, 20, 100, "2,00"⟩] =
      some "1,00" := by
  refine ⟨by decide, by decide, ?_, ?_⟩
  · norm_num [ordenarValores, insertarValor, vCentro, mejorValor,
      escanear, admitido, distSq]
  · norm_num [mejorValor, escanear, admitido, distSq, vCentro]

/-- Claim C7, amended: sorting the amount candidates by vertical center
before the scan never changes whether a code finds a Match, and it
changes which Match only on exact ties at the minimal distance —
whenever all admitted candidates attaining the minimal squared distance
carry the same text, the sorted scan and the original-order scan select
the same Match. -/
theorem claim_C7 (y_tol : ℚ) (cas : Word) (vs : List Word) :
    ((mejorValor y_tol cas (ordenarValores vs)).isSome ↔
      (mejorValor y_tol cas vs).isSome) ∧
    ((∀ u ∈ vs.filter (admitido y_tol cas),
        ∀ v ∈ vs.filter (admitido y_tol cas),
        (∀ w ∈ vs.filter (admitido y_tol cas),
          distSq cas u ≤ distSq cas w) →
        (∀ w ∈ vs.filter (admitido y_tol cas),
          distSq cas v ≤ distSq cas w) →
        u.texto = v.texto) →
      mejorValor y_tol cas (ordenarValores vs) =
        mejorValor y_tol cas vs) := by
  have hperm : ((ordenarValores vs).filter (admitido y_tol cas)).Perm
      (vs.filter (admitido y_tol cas)) :=
    (ordenarValores_perm vs).filter _
  have h1 : mejorValor y_tol cas (ordenarValores vs) = none ↔
      vs.filter (admitido y_tol cas) = [] := by
    rw [mejorValor_eq_eligeMin, Option.map_eq_none', eligeMin_eq_none_iff]
    constructor
    · intro h
      rw [h] at hperm
      exact hperm.symm.eq_nil
    · intro h
      rw [h] at hperm
      exact hperm.eq_nil
  have h2 : mejorValor y_tol cas vs = none ↔
      vs.filter (admitido y_tol cas) = [] := by
    rw [mejorValor_eq_eligeMin, Option.map_eq_none', eligeMin_eq_none_iff]
  constructor
  · constructor
    · intro h
      by_contra hno
      rw [Option.not_isSome_iff_eq_none] at hno
      rw [h1.mpr (h2.mp hno)] at h
      cases h
    · intro h
      by_contra hno
      rw [Option.not_isSome_iff_eq_none] at hno
      rw [h2.mpr (h1.mp hno)] at h
      cases h
  · intro huniq
    rcases hB : mejorValor y_tol cas vs with _ | tb
    · exact h1.mpr (h2.mp hB)
    · rcases hA : mejorValor y_tol cas (ordenarValores vs) with _ | ta
      · have := h2.mpr (h1.mp hA)
        rw [this] at hB
        cases hB
      · rw [mejorValor_eq_eligeMin] at hA hB
        rcases Option.map_eq_some.mp hA with ⟨wa, hwa, hta⟩
        rcases Option.map_eq_some.mp hB with ⟨wb, hwb, htb⟩
        have hwaB : wa ∈ vs.filter (admitido y_tol cas) :=
          hperm.subset (eligeMin_mem cas _ wa hwa)
        have hwbB : wb ∈ vs.filter (admitido y_tol cas) :=
          eligeMin_mem cas _ wb hwb
        have hmina : ∀ w ∈ vs.filter (admitido y_tol cas),
            distSq cas wa ≤ distSq cas w :=
          fun w hwB => eligeMin_le cas _ wa hwa w (hperm.symm.subset hwB)
        have hminb : ∀ w ∈ vs.filter (admitido y_tol cas),
            distSq cas wb ≤ distSq cas w :=
          eligeMin_le cas _ wb hwb
        have htexto : wa.texto = wb.texto :=
          huniq wa hwaB wb hwbB hmina hminb
        rw [← hta, ← htb, htexto]

/-- Witness for the amended C7 on a tie-free concrete list. -/
theorem claim_C7_witness :
    mejorValor 2 ⟨10, 100, 20, 102, "01500"⟩
      (ordenarValores [⟨25, 100, 30, 102, "7,00"⟩]) =
    mejorValor 2 ⟨10, 100, 20, 102, "01500"⟩
      [⟨25, 100, 30, 102, "7,00"⟩] := by
  refine (claim_C7 2 ⟨10, 100, 20, 102, "01500"⟩
    [⟨25, 100, 30, 102, "7,00"⟩]).2 ?_
  intro u hu v hv _ _
  have hu' : u = ⟨25, 100, 30, 102, "7,00"⟩ := by
    rcases List.mem_filter.mp hu with ⟨hm, _⟩
    simpa using hm
  have hv' : v = ⟨25, 100, 30, 102, "7,00"⟩ := by
    rcases List.mem_filter.mp hv with ⟨hm, _⟩
    simpa using hm
  rw [hu', hv']

/-! ### The helper `str_eu_a_float` (src/app.py lines 140–158). -/

/-- A Python value as passed to `str_eu_a_float`: either a string or
anything else — the function's `isinstance(x, str)` check (line 147)
returns `None` on every non-string. -/
inductive ValorPy where
  | cadena : String → ValorPy
  | otro : ValorPy
deriving DecidableEq

/-- Model of `t.replace(".", "")` (line 153): delete every dot. -/
def quitarPuntos (cs : List Char) : List Char :=
  cs.filter (fun c => c != '.')

/-- Model of `t.replace(",", ".")` (line 153): turn every comma into a
dot. -/
def comasAPuntos (cs : List Char) : List Char :=
  cs.map (fun c => if c = ',' then '.' else c)

/-- Exponent part of a Python float literal, after `e`/`E`: an optional
sign and a nonempty digit run. -/
def parseExp : List Char → Option ℤ
  | '-' :: r =>
      if r ≠ [] ∧ r.all Char.isDigit then some (-(valorNat r : ℤ)) else none
  | '+' :: r =>
      if r ≠ [] ∧ r.all Char.isDigit then some ((valorNat r : ℤ)) else none
  | r =>
      if r ≠ [] ∧ r.all Char.isDigit then some ((valorNat r : ℤ)) else none

/-- Mantissa and optional exponent of a Python float literal after the
optional sign: `digits [. digits] [(e|E) exp]` with at least one digit
in the mantissa. -/
def parseMantExp (cs : List Char) : Option ℚ :=
  let ent := cs.takeWhile Char.isDigit
  let r1 := cs.dropWhile Char.isDigit
  let frac := match r1 with
    | '.' :: r => r.takeWhile Char.isDigit
    | _ => []
  let r2 := match r1 with
    | '.' :: r => r.dropWhile Char.isDigit
    | _ => r1
  if ent.length = 0 ∧ frac.length = 0 then none
  else
    let base : ℚ := (valorNat ent : ℚ) + (valorNat frac : ℚ) / 10 ^ frac.length
    match r2 with
    | [] => some base
    | 'e' :: r => (parseExp r).map (fun e => base * 10 ^ e)
    | 'E' :: r => (parseExp r).map (fun e => base * 10 ^ e)
    | _ => none

/-- Modelled library function: Python `float(t)` on finite decimal
literals — surrounding whitespace, an optional sign, `digits [. digits]`
with at least one digit, and an optional `e`/`E` exponent, evaluated
exactly over `ℚ`.  The special spellings `inf`/`nan` and underscore
digit separators accepted by CPython are outside the model, and the
binary rounding of the resulting `float` is idealised away. -/
def floatPy? (cs : List Char) : Option ℚ :=
  match recortar cs with
  | '-' :: r => (parseMantExp r).map (fun q => -q)
  | '+' :: r => parseMantExp r
  | r => parseMantExp r

/-- Model of `str_eu_a_float` (lines 140–158): `None` on a non-string;
strip; `None` on the empty string; delete dots, turn the comma into a
dot, and parse as a float, with any failure mapped to `None` by the
`try`/`except`. -/
def str_eu_a_float : ValorPy → Option ℚ
  | .otro => none
  | .cadena x =>
    let t := strip x
    if t = "" then none
    else floatPy? (comasAPuntos (quitarPuntos t.data))

/-- Absolute decimal value denoted by an unsigned amount string per the
spec: the digits before the comma with grouping dots removed, plus the
two digits after the comma as cents. -/
def valorImporteAbs (r : List Char) : ℚ :=
  (valorNat (quitarPuntos (r.takeWhile (fun c => c != ','))) : ℚ) +
  (valorNat ((r.dropWhile (fun c => c != ',')).drop 1) : ℚ) / 100

/-- Decimal value denoted by an amount string per the spec: optional
sign, grouping dots removed, comma read as the decimal point. -/
def valorImporte (cs : List Char) : ℚ :=
  match cs with
  | '-' :: r => -(valorImporteAbs r)
  | r => valorImporteAbs r

theorem takeWhile_eq_self_of_all {p : Char → Bool} :
    ∀ l : List Char, (∀ c ∈ l, p c = true) → l.takeWhile p = l := by
  intro l h
  induction l with
  | nil => rfl
  | cons a l ih =>
    have ha : p a = true := h a (List.mem_cons_self a l)
    simp [List.takeWhile_cons, ha,
      ih (fun c hc => h c (List.mem_cons_of_mem a hc))]

theorem dropWhile_eq_nil_of_all {p : Char → Bool} :
    ∀ l : List Char, (∀ c ∈ l, p c = true) → l.dropWhile p = [] := by
  intro l h
  induction l with
  | nil => rfl
  | cons a l ih =>
    have ha : p a = true := h a (List.mem_cons_self a l)
    simp [List.dropWhile_cons, ha,
      ih (fun c hc => h c (List.mem_cons_of_mem a hc))]

theorem dropWhile_eq_self_of_all {p : Char → Bool} (l : List Char)
    (h : ∀ c ∈ l, p c = false) : l.dropWhile p = l := by
  cases l with
  | nil => rfl
  | cons a l => simp [List.dropWhile_cons, h a (List.mem_cons_self a l)]

theorem recortar_eq_self (cs : List Char)
    (h : ∀ c ∈ cs, esBlanco c = false) : recortar cs = cs := by
  rw [recortar, dropWhile_eq_self_of_all cs h,
    dropWhile_eq_self_of_all cs.reverse
      (fun c hc => h c (List.mem_reverse.mp hc)),
    List.reverse_reverse]

/-- A decimal digit is not a dot, a comma, a minus sign, or
whitespace. -/
theorem digit_facts (c : Char) (h : c.isDigit = true) :
    (c != '.') = true ∧ (c != ',') = true ∧ esBlanco c = false ∧
      c ≠ '-' := by
  refine ⟨?_, ?_, ?_, ?_⟩
  · by_cases hc : c = '.'
    · subst hc; exact absurd h (by decide)
    · simp [bne_iff_ne, hc]
  · by_cases hc : c = ','
    · subst hc; exact absurd h (by decide)
    · simp [bne_iff_ne, hc]
  · cases hb : esBlanco c
    · rfl
    · exfalso
      simp only [esBlanco, Char.isWhitespace, Bool.or_eq_true,
        decide_eq_true_eq] at hb
      rcases hb with ((rfl | rfl) | rfl) | rfl <;> exact absurd h (by decide)
  · intro hc; subst hc; exact absurd h (by decide)

theorem quitarPuntos_append (l1 l2 : List Char) :
    quitarPuntos (l1 ++ l2) = quitarPuntos l1 ++ quitarPuntos l2 := by
  simp [quitarPuntos]

theorem quitarPuntos_digits (l : List Char)
    (h : ∀ c ∈ l, c.isDigit = true) : quitarPuntos l = l :=
  List.filter_eq_self.mpr (fun c hc => (digit_facts c (h c hc)).1)

theorem comasAPuntos_append (l1 l2 : List Char) :
    comasAPuntos (l1 ++ l2) = comasAPuntos l1 ++ comasAPuntos l2 := by
  simp [comasAPuntos]

theorem comasAPuntos_no_comma (l : List Char)
    (h : ∀ c ∈ l, c ≠ ',') : comasAPuntos l = l := by
  rw [comasAPuntos]
  have : ∀ c ∈ l, (if c = ',' then '.' else c) = id c := by
    intro c hc
    simp [h c hc]
  rw [List.map_congr_left this, List.map_id]

theorem quitarPuntos_flat (grupos : List (List Char))
    (hg : ∀ g ∈ grupos, ∀ c ∈ g, c.isDigit = true) :
    quitarPuntos (grupos.flatMap (fun g => '.' :: g)) = grupos.flatten := by
  induction grupos with
  | nil => rfl
  | cons g gs ih =>
    rw [List.flatMap_cons, quitarPuntos_append, List.flatten_cons,
      ih (fun g' hg' => hg g' (List.mem_cons_of_mem g hg'))]
    congr 1
    show quitarPuntos ('.' :: g) = g
    rw [quitarPuntos, List.filter_cons]
    simp only [bne_self_eq_false, if_false]
    exact quitarPuntos_digits g (hg g (List.mem_cons_self g gs))

/-- The transformation `replace(".","")` then `replace(",",".")` turns a
well-formed unsigned amount body into a plain decimal literal. -/
theorem transform_eq (d1 : List Char) (grupos : List (List Char))
    (f : List Char) (hd : ∀ c ∈ d1, c.isDigit = true)
    (hg : ∀ g ∈ grupos, ∀ c ∈ g, c.isDigit = true)
    (hfd : ∀ c ∈ f, c.isDigit = true) :
    comasAPuntos (quitarPuntos
      (d1 ++ (grupos.flatMap (fun g => '.' :: g)) ++ ',' :: f)) =
      (d1 ++ grupos.flatten) ++ '.' :: f := by
  rw [quitarPuntos_append, quitarPuntos_append, quitarPuntos_digits d1 hd,
    quitarPuntos_flat grupos hg]
  have hcf : quitarPuntos (',' :: f) = ',' :: f := by
    have hf' := quitarPuntos_digits f hfd
    rw [quitarPuntos] at hf' ⊢
    rw [List.filter_cons]
    simpa using hf'
  rw [hcf, comasAPuntos_append, comasAPuntos_append,
    comasAPuntos_no_comma d1 (fun c hc => bne_iff_ne.mp
      (digit_facts c (hd c hc)).2.1),
    comasAPuntos_no_comma grupos.flatten ?flatnc]
  case flatnc =>
    intro c hc
    rcases List.mem_flatten.mp hc with ⟨g, hgm, hcg⟩
    exact bne_iff_ne.mp (digit_facts c (hg g hgm c hcg)).2.1
  have hcomf : comasAPuntos (',' :: f) = '.' :: f := by
    have hmap := comasAPuntos_no_comma f
      (fun c hc => bne_iff_ne.mp (digit_facts c (hfd c hc)).2.1)
    rw [comasAPuntos, List.map_cons] at *
    simpa using hmap
  rw [hcomf, List.append_assoc]

theorem parseMantExp_decimal (D f : List Char)
    (hD : ∀ c ∈ D, c.isDigit = true) (hf : ∀ c ∈ f, c.isDigit = true)
    (hne : D ≠ []) :
    parseMantExp (D ++ '.' :: f) =
      some ((valorNat D : ℚ) + (valorNat f : ℚ) / 10 ^ f.length) := by
  have hspan := span_append Char.isDigit D ('.' :: f) hD
    (by intro c hc; cases hc; decide)
  simp only [parseMantExp]
  rw [hspan.1, hspan.2]
  simp only [takeWhile_eq_self_of_all f hf, dropWhile_eq_nil_of_all f hf]
  rw [if_neg (by
    rintro ⟨h0, _⟩
    exact hne (List.length_eq_zero.mp h0))]

theorem floatPy?_of_head_digit (cs : List Char)
    (hnb : recortar cs = cs)
    (hhead : ∀ c, cs.head? = some c → c.isDigit = true) :
    floatPy? cs = parseMantExp cs := by
  unfold floatPy?
  rw [hnb]
  split
  · have : ('-' : Char).isDigit = true := hhead '-' rfl
    exact absurd this (by decide)
  · have : ('+' : Char).isDigit = true := hhead '+' rfl
    exact absurd this (by decide)
  · rfl

theorem floatPy?_neg (X : List Char) (hnb : recortar ('-' :: X) = '-' :: X) :
    floatPy? ('-' :: X) = (parseMantExp X).map (fun q => -q) := by
  unfold floatPy?
  rw [hnb]
  rfl

theorem valorImporte_no_neg (cs : List Char) (h : ∀ r, cs ≠ '-' :: r) :
    valorImporte cs = valorImporteAbs cs := by
  cases cs with
  | nil => rfl
  | cons c r =>
    by_cases hc : c = '-'
    · exact absurd (by rw [hc]) (h r)
    · show valorImporte (c :: r) = valorImporteAbs (c :: r)
      unfold valorImporte
      split
      · rename_i heq
        exact absurd heq (by
          intro hh
          exact hc (List.head_eq_of_cons_eq hh))
      · rfl

theorem valorImporteAbs_eq (d1 : List Char) (grupos : List (List Char))
    (f : List Char) (hd : ∀ c ∈ d1, c.isDigit = true)
    (hg : ∀ g ∈ grupos, ∀ c ∈ g, c.isDigit = true)
    (hfd : ∀ c ∈ f, c.isDigit = true) :
    valorImporteAbs
      (d1 ++ (grupos.flatMap (fun g => '.' :: g)) ++ ',' :: f) =
      (valorNat (d1 ++ grupos.flatten) : ℚ) + (valorNat f : ℚ) / 100 := by
  have hnc : ∀ c ∈ d1 ++ (grupos.flatMap (fun g => '.' :: g)),
      (c != ',') = true := by
    intro c hc
    rcases List.mem_append.mp hc with h1 | h2
    · exact (digit_facts c (hd c h1)).2.1
    · rcases List.mem_flatMap.mp h2 with ⟨g, hgm, hcg⟩
      rcases List.mem_cons.mp hcg with rfl | hcg'
      · decide
      · exact (digit_facts c (hg g hgm c hcg')).2.1
  have hspan := span_append (fun c => c != ',')
    (d1 ++ (grupos.flatMap (fun g => '.' :: g))) (',' :: f) hnc
    (by intro c hc; cases hc; decide)
  rw [valorImporteAbs, hspan.1, hspan.2]
  rw [quitarPuntos_append, quitarPuntos_digits d1 hd,
    quitarPuntos_flat grupos hg]
  simp

/-- Claim C9: `str_eu_a_float` is total — it returns `none` exactly on a
non-string, on a string that strips to empty, or when the transformed
string ("delete dots, comma to dot") does not parse as a float — and on
every string fully matching the amount pattern it returns the decimal
value that string denotes. -/
theorem claim_C9 :
    (∀ x : ValorPy, str_eu_a_float x = none ↔
      (x = ValorPy.otro ∨ ∃ s, x = ValorPy.cadena s ∧
        (strip s = "" ∨
          floatPy? (comasAPuntos (quitarPuntos (strip s).data)) = none))) ∧
    (∀ s : String, esImporte s = true →
      str_eu_a_float (ValorPy.cadena s) = some (valorImporte s.data)) := by
  constructor
  · intro x
    cases x with
    | otro => simp [str_eu_a_float]
    | cadena s =>
      simp only [str_eu_a_float]
      by_cases he : strip s = ""
      · rw [if_pos he]
        constructor
        · intro _; exact Or.inr ⟨s, rfl, Or.inl he⟩
        · intro _; rfl
      · rw [if_neg he]
        constructor
        · intro hnone
          exact Or.inr ⟨s, rfl, Or.inr hnone⟩
        · rintro (hcontra | ⟨s', hs', hor⟩)
          · cases hcontra
          · have hss : s = s' := ValorPy.cadena.inj hs'
            subst hss
            rcases hor with h | h
            · exact absurd h he
            · exact h
  · intro s h
    rcases (importeMatch_iff_forma s.data).mp h with
      ⟨signo, d1, grupos, f, hs, h1, _h3, hd, hg, hf2, hfd, hcs⟩
    have hgd : ∀ g ∈ grupos, ∀ c ∈ g, c.isDigit = true :=
      fun g hgm => (hg g hgm).2
    have hnb : ∀ c ∈ s.data, esBlanco c = false := by
      intro c hc
      rw [hcs] at hc
      rcases List.mem_append.mp hc with hc1 | hcf
      · rcases List.mem_append.mp hc1 with hc2 | hflat
        · rcases List.mem_append.mp hc2 with hsg | hd1
          · rcases hs with rfl | rfl
            · cases hsg
            · have hcm : c = '-' := by simpa using hsg
              subst hcm; decide
          · exact (digit_facts c (hd c hd1)).2.2.1
        · rcases List.mem_flatMap.mp hflat with ⟨g, hgm, hcg⟩
          rcases List.mem_cons.mp hcg with rfl | hcg'
          · decide
          · exact (digit_facts c (hgd g hgm c hcg')).2.2.1
      · rcases List.mem_cons.mp hcf with rfl | hcf'
        · decide
        · exact (digit_facts c (hfd c hcf')).2.2.1
    have hstrip : strip s = s := by
      rw [strip, recortar_eq_self s.data hnb]
    have hne : strip s ≠ "" := by
      rw [hstrip]
      intro hcontra
      have hdata : s.data = [] := congrArg String.data hcontra
      rw [hcs] at hdata
      have hlen := congrArg List.length hdata
      simp [List.length_append] at hlen
    simp only [str_eu_a_float]
    rw [if_neg hne, hstrip]
    have hDdig : ∀ c ∈ d1 ++ grupos.flatten, c.isDigit = true := by
      intro c hc
      rcases List.mem_append.mp hc with h' | h'
      · exact hd c h'
      · rcases List.mem_flatten.mp h' with ⟨g, hgm, hcg⟩
        exact hgd g hgm c hcg
    have hDne : d1 ++ grupos.flatten ≠ [] := by
      intro hcontra
      rcases List.append_eq_nil.mp hcontra with ⟨h', _⟩
      rw [h'] at h1
      simp at h1
    have hallT : ∀ c ∈ (d1 ++ grupos.flatten) ++ '.' :: f,
        esBlanco c = false := by
      intro c hc
      rcases List.mem_append.mp hc with h' | h'
      · exact (digit_facts c (hDdig c h')).2.2.1
      · rcases List.mem_cons.mp h' with rfl | h''
        · decide
        · exact (digit_facts c (hfd c h'')).2.2.1
    have hparse : parseMantExp ((d1 ++ grupos.flatten) ++ '.' :: f) =
        some ((valorNat (d1 ++ grupos.flatten) : ℚ) +
          (valorNat f : ℚ) / 10 ^ f.length) :=
      parseMantExp_decimal _ f hDdig hfd hDne
    rcases hs with rfl | rfl
    · rw [hcs]
      simp only [List.nil_append]
      rw [transform_eq d1 grupos f hd hgd hfd]
      rw [floatPy?_of_head_digit _ (recortar_eq_self _ hallT) ?hddig]
      case hddig =>
        intro c hc
        rcases hD : d1 with _ | ⟨a, d1'⟩
        · rw [hD] at h1; simp at h1
        · rw [hD] at hc
          simp only [List.cons_append, List.head?_cons] at hc
          have hca : c = a := (Option.some.inj hc).symm
          subst hca
          exact hd c (by rw [hD]; exact List.mem_cons_self c d1')
      rw [hparse]
      have hnoneg : ∀ r, d1 ++ (grupos.flatMap (fun g => '.' :: g)) ++
          ',' :: f ≠ '-' :: r := by
        intro r hcontra
        rcases hD : d1 with _ | ⟨a, d1'⟩
        · rw [hD] at h1; simp at h1
        · rw [hD] at hcontra
          simp only [List.cons_append] at hcontra
          have hca : a = '-' := List.head_eq_of_cons_eq hcontra
          have := (digit_facts a (hd a (by
            rw [hD]; exact List.mem_cons_self a d1'))).2.2.2
          exact this hca
      rw [valorImporte_no_neg _ hnoneg,
        valorImporteAbs_eq d1 grupos f hd hgd hfd, hf2]
      norm_num
    · rw [hcs]
      have hform : (['-'] ++ d1 ++ (grupos.flatMap (fun g => '.' :: g)) ++
          ',' :: f) = '-' :: (d1 ++ (grupos.flatMap (fun g => '.' :: g)) ++
          ',' :: f) := by simp
      rw [hform]
      have hq : quitarPuntos ('-' :: (d1 ++
          (grupos.flatMap (fun g => '.' :: g)) ++ ',' :: f)) =
          '-' :: quitarPuntos (d1 ++
            (grupos.flatMap (fun g => '.' :: g)) ++ ',' :: f) := by
        rw [quitarPuntos, List.filter_cons]
        simp only [show (('-' : Char) != '.') = true from by decide, if_true]
        rfl
      rw [hq]
      have hcm : comasAPuntos ('-' :: quitarPuntos (d1 ++
          (grupos.flatMap (fun g => '.' :: g)) ++ ',' :: f)) =
          '-' :: comasAPuntos (quitarPuntos (d1 ++
            (grupos.flatMap (fun g => '.' :: g)) ++ ',' :: f)) := by
        rw [comasAPuntos, List.map_cons]
        simp only [show ¬(('-' : Char) = ',') from by decide, if_false]
        rfl
      rw [hcm, transform_eq d1 grupos f hd hgd hfd]
      have hrecneg : recortar ('-' :: ((d1 ++ grupos.flatten) ++
          '.' :: f)) = '-' :: ((d1 ++ grupos.flatten) ++ '.' :: f) := by
        refine recortar_eq_self _ ?_
        intro c hc
        rcases List.mem_cons.mp hc with rfl | h'
        · decide
        · exact hallT c h'
      rw [floatPy?_neg _ hrecneg, hparse]
      have hval : valorImporte ('-' :: (d1 ++
          (grupos.flatMap (fun g => '.' :: g)) ++ ',' :: f)) =
          -(valorImporteAbs (d1 ++
            (grupos.flatMap (fun g => '.' :: g)) ++ ',' :: f)) := rfl
      rw [hval, valorImporteAbs_eq d1 grupos f hd hgd hfd, hf2]
      norm_num

/-- Witness for C9: the concrete accepted amount string `17.772,60`. -/
theorem claim_C9_witness :
    esImporte "17.772,60" = true ∧
    str_eu_a_float (ValorPy.cadena "17.772,60") =
      some (valorImporte "17.772,60".data) ∧
    valorImporte "17.772,60".data = 88863 / 5 :=
  ⟨by decide, claim_C9.2 "17.772,60" (by decide), by
    have hv : valorImporte "17.772,60".data =
        valorImporteAbs "17.772,60".data := rfl
    have hent : valorNat (quitarPuntos
        (("17.772,60".data).takeWhile (fun c => c != ','))) = 17772 := by
      decide
    have hfrac : valorNat
        ((("17.772,60".data).dropWhile (fun c => c != ',')).drop 1) = 60 := by
      decide
    rw [hv, valorImporteAbs, hent, hfrac]
    norm_num⟩

end Extractor200
